import Mathlib

/-!
Verification development for the PIV-vortoj scraper.

The source program (src/scrape.py, src/remove_word_endings.py, src/utils.py)
is shallowly embedded below:

* the crawl engine (`ScrapingProcessor`) keeps three sets of words
  (`not_yet`, `done`, `no_results`); we model them as `Finset String`,
  the loop body of `ScrapingProcessor.start` as `step`, and a crawl run
  as a fold over the list of popped words (`runTrace`), since the order
  of `set.pop()` is unspecified;
* the page fetch and page extraction are external collaborators; they
  enter the embedding as parameters `f : String → Bool` (did the search
  succeed) and `e : String → Finset String` (words extracted from the
  page of a successfully searched word);
* word-level text processing (`esorted`, `_split_into_words`,
  `_is_valid_word`, `_remove_invalid_words`, `_remove_word_endings`) is
  embedded over `List Char`;
* the portion of `_extract_words` that walks the parsed document is
  embedded over an explicit tree model of the tag soup.
-/

namespace PIV

/-! ### Crawl engine state (ScrapingProcessor, src/scrape.py) -/

/-- `FIRST_WORD = 'ktp'` (src/scrape.py line 28). -/
def FIRST_WORD : String := "ktp"

/-- The three word sets owned by `ScrapingProcessor`:
`self.not_yet`, `self.done`, `self.no_results`. -/
structure CrawlState where
  not_yet : Finset String
  done : Finset String
  no_results : Finset String
deriving DecidableEq

/-- The set-initialisation logic of `ScrapingProcessor.__init__`
(src/scrape.py lines 72-76): the three sets are loaded from disk, and
`FIRST_WORD` is added to `not_yet` when — and only when — the loaded
`not_yet` is empty.  The arguments are the persisted contents of the
three files. -/
def initState (p d n : Finset String) : CrawlState :=
  { not_yet := if p = ∅ then {FIRST_WORD} else p
    done := d
    no_results := n }

/-- One completed iteration of the loop body of `ScrapingProcessor.start`
(src/scrape.py lines 90-117), for popped word `w`:
pop `w` from `not_yet`; on fetch success add `w` to `done` and merge
`extracted − done − no_results` into `not_yet`; on failure add `w` to
`no_results`.  (Saving the html, the timer and the sleep do not touch
the three sets.) -/
def step (f : String → Bool) (e : String → Finset String) (w : String)
    (s : CrawlState) : CrawlState :=
  let ny := s.not_yet.erase w
  if f w then
    let d := insert w s.done
    { not_yet := ny ∪ ((e w \ d) \ s.no_results)
      done := d
      no_results := s.no_results }
  else
    { not_yet := ny
      done := s.done
      no_results := insert w s.no_results }

/-- A crawl run: fold `step` over the list of popped words. -/
def runTrace (f : String → Bool) (e : String → Finset String) :
    List String → CrawlState → CrawlState
  | [], s => s
  | w :: ws, s => runTrace f e ws (step f e w s)

/-- A trace is valid when each popped word was actually a member of the
current `not_yet` (as `set.pop()` guarantees). -/
def validTrace (f : String → Bool) (e : String → Finset String) :
    CrawlState → List String → Bool
  | _, [] => true
  | s, w :: ws =>
    decide (w ∈ s.not_yet) && validTrace f e (step f e w s) ws

/-- The loop body of `ScrapingProcessor.start` decomposed at its
interruption points, for popped word `w`.  `k` counts how many of the
body's set mutations completed before the exception was raised:
`k = 0` — `w` was popped but not yet classified (the exception was
raised during the fetch, i.e. "after fetch but before set mutation"
also lands here); `k = 1` — `w` was added to `done` (success branch)
or to `no_results` (failure branch) but the frontier merge has not run;
`k ≥ 2` — the whole body ran (the exception was raised while saving
the html, in the timer, in the logging, or in the sleep). -/
def partialIter (f : String → Bool) (e : String → Finset String)
    (w : String) (s : CrawlState) : Nat → CrawlState
  | 0 => { s with not_yet := s.not_yet.erase w }
  | 1 =>
    if f w then
      { s with not_yet := s.not_yet.erase w, done := insert w s.done }
    else
      { s with not_yet := s.not_yet.erase w,
               no_results := insert w s.no_results }
  | _ => step f e w s

/-- The `except BaseException` handler of `ScrapingProcessor.start`
(src/scrape.py lines 119-126): re-insert the in-flight word into
`not_yet`, whatever point `k` of the body the exception interrupted. -/
def interruptedAt (f : String → Bool) (e : String → Finset String)
    (w : String) (s : CrawlState) (k : Nat) : CrawlState :=
  let t := partialIter f e w s k
  { t with not_yet := insert w t.not_yet }

/-- Restarting the engine from a persisted state re-applies the
seed rule of `__init__`. -/
def restart (s : CrawlState) : CrawlState :=
  initState s.not_yet s.done s.no_results

/-- Pairwise disjointness of the three sets. -/
def Disjoint3 (s : CrawlState) : Prop :=
  s.not_yet ∩ s.done = ∅ ∧ s.not_yet ∩ s.no_results = ∅ ∧
    s.done ∩ s.no_results = ∅

instance (s : CrawlState) : Decidable (Disjoint3 s) := by
  unfold Disjoint3; infer_instance

/-- The set of all words the state knows about. -/
def unionS (s : CrawlState) : Finset String :=
  s.not_yet ∪ s.done ∪ s.no_results

/-- Closure invariant of a crawl: every completed word really fetched
successfully and everything extracted from it has been queued or
classified; every unresolved word really failed to fetch. -/
def Inv (f : String → Bool) (e : String → Finset String)
    (s : CrawlState) : Prop :=
  (∀ w ∈ s.done, f w = true ∧ e w ⊆ unionS s) ∧
    ∀ w ∈ s.no_results, f w = false

/-! ### Crawl-engine lemmas -/

theorem step_disjoint3 (f : String → Bool) (e : String → Finset String)
    (w : String) (s : CrawlState) (hw : w ∈ s.not_yet)
    (h : Disjoint3 s) : Disjoint3 (step f e w s) := by
  obtain ⟨h1, h2, h3⟩ := h
  rw [Finset.eq_empty_iff_forall_not_mem] at h1 h2 h3
  simp only [Finset.mem_inter, not_and] at h1 h2 h3
  unfold Disjoint3
  by_cases hf : f w = true <;>
    refine ⟨?_, ?_, ?_⟩ <;>
    · rw [Finset.eq_empty_iff_forall_not_mem]
      intro x
      simp only [step, hf, if_true, if_false, Bool.false_eq_true,
        Finset.mem_inter, Finset.mem_union, Finset.mem_erase,
        Finset.mem_insert, Finset.mem_sdiff, not_and, not_or]
      have a1 := h1 x
      have a2 := h2 x
      have a3 := h3 x
      have b1 := h1 w hw
      have b2 := h2 w hw
      by_cases hxw : x = w
      · subst hxw; tauto
      · tauto

theorem unionS_subset_step (f : String → Bool) (e : String → Finset String)
    (w : String) (s : CrawlState) : unionS s ⊆ unionS (step f e w s) := by
  intro x hx
  simp only [unionS, Finset.mem_union] at hx
  by_cases hf : f w = true <;>
    simp only [unionS, step, hf, if_true, if_false, Bool.false_eq_true,
      Finset.mem_union, Finset.mem_erase, Finset.mem_insert,
      Finset.mem_sdiff] <;>
    by_cases hxw : x = w <;>
    tauto

theorem step_Inv (f : String → Bool) (e : String → Finset String)
    (w : String) (s : CrawlState) (h : Inv f e s) :
    Inv f e (step f e w s) := by
  obtain ⟨hd, hn⟩ := h
  by_cases hf : f w = true
  · constructor
    · intro u hu
      simp only [step, hf, if_true, Finset.mem_insert] at hu
      rcases hu with rfl | hu
      · refine ⟨hf, fun x hx => ?_⟩
        simp only [unionS, step, hf, if_true, Finset.mem_union,
          Finset.mem_erase, Finset.mem_insert, Finset.mem_sdiff]
        by_cases hxd : x = u ∨ x ∈ s.done
        · tauto
        · by_cases hxn : x ∈ s.no_results <;> tauto
      · obtain ⟨hu1, hu2⟩ := hd u hu
        exact ⟨hu1, fun x hx => unionS_subset_step f e w s (hu2 hx)⟩
    · intro u hu
      simp only [step, hf, if_true] at hu
      exact hn u hu
  · constructor
    · intro u hu
      simp only [step, hf, if_false, Bool.false_eq_true] at hu
      obtain ⟨hu1, hu2⟩ := hd u hu
      exact ⟨hu1, fun x hx => unionS_subset_step f e w s (hu2 hx)⟩
    · intro u hu
      simp only [step, hf, if_false, Bool.false_eq_true,
        Finset.mem_insert] at hu
      rcases hu with rfl | hu
      · simpa using hf
      · exact hn u hu

theorem runTrace_disjoint3 (f : String → Bool) (e : String → Finset String) :
    ∀ (ws : List String) (s : CrawlState),
      validTrace f e s ws = true → Disjoint3 s →
      Disjoint3 (runTrace f e ws s)
  | [], _, _, h => h
  | w :: ws, s, hv, h => by
    simp only [validTrace, Bool.and_eq_true, decide_eq_true_eq] at hv
    exact runTrace_disjoint3 f e ws _ hv.2 (step_disjoint3 f e w s hv.1 h)

theorem unionS_subset_runTrace (f : String → Bool)
    (e : String → Finset String) :
    ∀ (ws : List String) (s : CrawlState),
      unionS s ⊆ unionS (runTrace f e ws s)
  | [], _ => fun _ hx => hx
  | w :: ws, s =>
    (unionS_subset_step f e w s).trans (unionS_subset_runTrace f e ws _)

theorem runTrace_Inv (f : String → Bool) (e : String → Finset String) :
    ∀ (ws : List String) (s : CrawlState),
      Inv f e s → Inv f e (runTrace f e ws s)
  | [], _, h => h
  | w :: ws, s, h => runTrace_Inv f e ws _ (step_Inv f e w s h)

/-! ### Claims C1-C4 -/

/-- C1, counterexample: with an empty persisted pending set but a
non-empty persisted completed set, `__init__` still adds the seed word
to `not_yet`, so the seed is NOT added "if and only if all three
persisted sets are empty". -/
theorem seed_added_despite_nonempty_done :
    ({"a"} : Finset String) ≠ ∅ ∧
      (initState ∅ {"a"} ∅).not_yet = {FIRST_WORD} := by decide

/-- C1, amended: at startup the seed word is freshly added to `pending`
if and only if the persisted `pending` set alone is empty — the
persisted `completed` and `unresolved` sets are not consulted; a
non-empty persisted `pending` is taken over unchanged, and `completed`
and `unresolved` are always taken over unchanged. -/
theorem seed_added_iff_pending_empty (p d n : Finset String) :
    (((initState p d n).not_yet = insert FIRST_WORD p ∧ FIRST_WORD ∉ p)
      ↔ p = ∅) ∧
    (p = ∅ ∨ (initState p d n).not_yet = p) ∧
    (initState p d n).done = d ∧ (initState p d n).no_results = n := by
  refine ⟨⟨?_, ?_⟩, ?_, rfl, rfl⟩
  · rintro ⟨h1, h2⟩
    by_contra hp
    simp only [initState, if_neg hp] at h1
    exact h2 (h1 ▸ Finset.mem_insert_self _ _)
  · rintro rfl
    simp [initState]
  · by_cases hp : p = ∅
    · exact Or.inl hp
    · exact Or.inr (by simp [initState, if_neg hp])

/-- C2, counterexample: if the interruption lands after the in-flight
word was added to `done` but before the frontier merge (interrupt
point 1), the exception handler re-inserts the word into `not_yet`
while it is also in `done`, so at exit the word IS simultaneously
present in pending and in completed. -/
theorem interrupted_word_duplicated_after_classification :
    FIRST_WORD ∈ (interruptedAt (fun _ => true) (fun _ => ∅) FIRST_WORD
      ⟨{FIRST_WORD}, ∅, ∅⟩ 1).not_yet ∧
    FIRST_WORD ∈ (interruptedAt (fun _ => true) (fun _ => ∅) FIRST_WORD
      ⟨{FIRST_WORD}, ∅, ∅⟩ 1).done := by decide

/-- C2, amended: whatever point of the loop body the interruption hits,
the exception handler re-inserts the in-flight word `w` into `not_yet`
(so `w` is never lost); and when the interruption occurs before the
classification mutation (interrupt point 0, which includes any fetch
failure), the resulting state is exactly the state before the
iteration, so `w` sits in `pending` exactly once and no duplication
across the sets arises.  (Duplication can arise at later interrupt
points — see the counterexample.) -/
theorem interrupted_word_always_requeued (f : String → Bool)
    (e : String → Finset String) (w : String) (s : CrawlState) (k : Nat) :
    w ∈ (interruptedAt f e w s k).not_yet ∧
      (w ∈ s.not_yet → interruptedAt f e w s 0 = s) := by
  constructor
  · simp [interruptedAt]
  · intro hw
    simp [interruptedAt, partialIter, Finset.insert_erase hw]

/-- Witness for C2's amended theorem at a concrete interrupted run. -/
theorem interrupted_word_always_requeued_witness :
    FIRST_WORD ∈ (interruptedAt (fun _ => true) (fun _ => ∅) FIRST_WORD
      ⟨{FIRST_WORD}, ∅, ∅⟩ 2).not_yet ∧
    interruptedAt (fun _ => true) (fun _ => ∅) FIRST_WORD
      ⟨{FIRST_WORD}, ∅, ∅⟩ 0 = ⟨{FIRST_WORD}, ∅, ∅⟩ :=
  ⟨(interrupted_word_always_requeued (fun _ => true) (fun _ => ∅)
      FIRST_WORD ⟨{FIRST_WORD}, ∅, ∅⟩ 2).1,
   (interrupted_word_always_requeued (fun _ => true) (fun _ => ∅)
      FIRST_WORD ⟨{FIRST_WORD}, ∅, ∅⟩ 0).2 (by decide)⟩

/-- C3: starting from pairwise-disjoint sets, after any number of
completed loop iterations (any valid trace of popped words) the three
sets are still pairwise disjoint, and the union of the three sets never
shrinks. -/
theorem crawl_sets_disjoint_and_union_monotone (f : String → Bool)
    (e : String → Finset String) (s : CrawlState) (ws : List String)
    (hv : validTrace f e s ws = true) (hd : Disjoint3 s) :
    Disjoint3 (runTrace f e ws s) ∧
      unionS s ⊆ unionS (runTrace f e ws s) :=
  ⟨runTrace_disjoint3 f e ws s hv hd, unionS_subset_runTrace f e ws s⟩

/-- Witness for C3 on a concrete two-iteration crawl. -/
theorem crawl_sets_disjoint_and_union_monotone_witness :
    Disjoint3 (runTrace (fun w => w == FIRST_WORD)
      (fun w => if w == FIRST_WORD then {"a"} else ∅)
      [FIRST_WORD, "a"] ⟨{FIRST_WORD}, ∅, ∅⟩) ∧
    unionS ⟨{FIRST_WORD}, ∅, ∅⟩ ⊆ unionS (runTrace (fun w => w == FIRST_WORD)
      (fun w => if w == FIRST_WORD then {"a"} else ∅)
      [FIRST_WORD, "a"] ⟨{FIRST_WORD}, ∅, ∅⟩) :=
  crawl_sets_disjoint_and_union_monotone (fun w => w == FIRST_WORD)
    (fun w => if w == FIRST_WORD then {"a"} else ∅)
    ⟨{FIRST_WORD}, ∅, ∅⟩ [FIRST_WORD, "a"] (by decide) (by decide)

/-- C4, counterexample: run the engine to completion from a fresh start,
persist, and rebuild.  Because the seed rule of `__init__` fires
whenever `not_yet` is empty, the already-classified seed word sits in
`not_yet` of the restarted engine, so it IS re-fetched once more even
though it was classified into `done`, contradicting "no word is
re-fetched once classified". -/
theorem classified_seed_requeued_on_restart :
    validTrace (fun _ => true) (fun _ => ∅) ⟨{FIRST_WORD}, ∅, ∅⟩
      [FIRST_WORD] = true ∧
    (runTrace (fun _ => true) (fun _ => ∅) [FIRST_WORD]
      ⟨{FIRST_WORD}, ∅, ∅⟩).not_yet = ∅ ∧
    FIRST_WORD ∈ (runTrace (fun _ => true) (fun _ => ∅) [FIRST_WORD]
      ⟨{FIRST_WORD}, ∅, ∅⟩).done ∧
    FIRST_WORD ∈ (restart (runTrace (fun _ => true) (fun _ => ∅)
      [FIRST_WORD] ⟨{FIRST_WORD}, ∅, ∅⟩)).not_yet := by decide

/-- C4, amended: run the engine from a fresh start (seed in `pending`)
to completion with deterministic fetch/extract behaviour, persist, and
restart (the startup rule re-adds the seed, since `pending` is empty).
Then any complete second run consists of exactly one iteration — the
re-fetch of the seed word — and leaves all three sets exactly as the
first run left them. -/
theorem rerun_after_completion_changes_nothing (f : String → Bool)
    (e : String → Finset String) (ws ws' : List String)
    (_hv : validTrace f e ⟨{FIRST_WORD}, ∅, ∅⟩ ws = true)
    (hc : (runTrace f e ws ⟨{FIRST_WORD}, ∅, ∅⟩).not_yet = ∅)
    (hv' : validTrace f e
      (restart (runTrace f e ws ⟨{FIRST_WORD}, ∅, ∅⟩)) ws' = true)
    (hc' : (runTrace f e ws'
      (restart (runTrace f e ws ⟨{FIRST_WORD}, ∅, ∅⟩))).not_yet = ∅) :
    runTrace f e ws' (restart (runTrace f e ws ⟨{FIRST_WORD}, ∅, ∅⟩)) =
      runTrace f e ws ⟨{FIRST_WORD}, ∅, ∅⟩ ∧ ws' = [FIRST_WORD] := by
  set s1 := runTrace f e ws ⟨{FIRST_WORD}, ∅, ∅⟩ with hs1def
  have hInv : Inv f e s1 := by
    apply runTrace_Inv
    constructor
    · intro u hu; exact absurd hu (Finset.not_mem_empty u)
    · intro u hu; exact absurd hu (Finset.not_mem_empty u)
  have h0 : FIRST_WORD ∈ unionS s1 := by
    apply unionS_subset_runTrace f e ws
    simp [unionS]
  have h1 : FIRST_WORD ∈ s1.done ∪ s1.no_results := by
    simp only [unionS, hc, Finset.empty_union] at h0
    exact h0
  have hrs : restart s1 = ⟨{FIRST_WORD}, s1.done, s1.no_results⟩ := by
    simp [restart, initState, hc]
  rcases ws' with _ | ⟨w, rest⟩
  · exfalso
    rw [runTrace, hrs] at hc'
    exact Finset.singleton_ne_empty _ hc'
  · rw [hrs] at hv'
    simp only [validTrace, Bool.and_eq_true, decide_eq_true_eq] at hv'
    obtain ⟨hwmem, hrest⟩ := hv'
    have hw : w = FIRST_WORD := by simpa using hwmem
    subst hw
    have hstep :
        step f e FIRST_WORD ⟨{FIRST_WORD}, s1.done, s1.no_results⟩ = s1 := by
      rcases Finset.mem_union.mp h1 with hdone | hnr
      · have hf : f FIRST_WORD = true := (hInv.1 _ hdone).1
        have hsub : e FIRST_WORD ⊆ s1.done ∪ s1.no_results := by
          intro x hx
          have h3 := (hInv.1 _ hdone).2 hx
          simp only [unionS, hc, Finset.empty_union] at h3
          exact h3
        have e2 : insert FIRST_WORD s1.done = s1.done :=
          Finset.insert_eq_self.mpr hdone
        have e3 : (e FIRST_WORD \ s1.done) \ s1.no_results = ∅ := by
          rw [Finset.eq_empty_iff_forall_not_mem]
          intro x hx
          simp only [Finset.mem_sdiff] at hx
          obtain ⟨⟨hxe, hxd⟩, hxn⟩ := hx
          rcases Finset.mem_union.mp (hsub hxe) with h | h
          · exact hxd h
          · exact hxn h
        simp only [step, hf, if_true]
        rw [Finset.erase_singleton, e2, e3, Finset.union_empty, ← hc]
      · have hf : f FIRST_WORD = false := hInv.2 _ hnr
        simp only [step, hf, Bool.false_eq_true, if_false]
        rw [Finset.erase_singleton, Finset.insert_eq_self.mpr hnr, ← hc]
    rw [hstep] at hrest
    have hrestnil : rest = [] := by
      rcases rest with _ | ⟨r, rs⟩
      · rfl
      · simp only [validTrace, Bool.and_eq_true, decide_eq_true_eq] at hrest
        exact absurd hrest.1 (by rw [hc]; exact Finset.not_mem_empty r)
    subst hrestnil
    refine ⟨?_, rfl⟩
    rw [hrs]
    simp only [runTrace]
    exact hstep

/-! ### Esperanto collation (`esorted`, src/utils.py lines 7-29,
mirrored in src/scrape.py lines 34-56) -/

/-- The per-character sort key `E_ALPHABET_CODE_POINT.get(char, ord(char))`:
the twelve accented letters map to their hard-coded table value, every
other character to its raw codepoint.  The float table values of the
source are exact halves (`67.5`, `71.5`, ...), represented here as the
exact rationals `135/2`, `143/2`, ... in lowest terms. -/
def E_ALPHABET_CODE_POINT (c : Char) : ℚ :=
  if c = 'Ĉ' then Rat.mk' 135 2
  else if c = 'Ĝ' then Rat.mk' 143 2
  else if c = 'Ĥ' then Rat.mk' 145 2
  else if c = 'Ĵ' then Rat.mk' 149 2
  else if c = 'Ŝ' then Rat.mk' 167 2
  else if c = 'Ŭ' then Rat.mk' 171 2
  else if c = 'ĉ' then Rat.mk' 199 2
  else if c = 'ĝ' then Rat.mk' 207 2
  else if c = 'ĥ' then Rat.mk' 209 2
  else if c = 'ĵ' then Rat.mk' 213 2
  else if c = 'ŝ' then Rat.mk' 231 2
  else if c = 'ŭ' then Rat.mk' 235 2
  else (c.toNat : ℚ)

/-- `_key_func(word)`: the list of per-character keys. -/
def ekey (w : List Char) : List ℚ := w.map E_ALPHABET_CODE_POINT

/-- Python's ordering on lists of numbers: positional (lexicographic)
comparison, a shorter list preceding any extension of itself. -/
def keyLe : List ℚ → List ℚ → Bool
  | [], _ => true
  | _ :: _, [] => false
  | x :: xs, y :: ys =>
    if x < y then true else if y < x then false else keyLe xs ys

/-- The word ordering used by `sorted(words, key=_key_func)`. -/
def eRel (a b : List Char) : Prop := keyLe (ekey a) (ekey b) = true

instance : DecidableRel eRel := fun a b => by unfold eRel; infer_instance

/-- `esorted(words)`: a stable sort by `ekey`, embedded as insertion
sort (Python's `sorted` contract: a permutation of the input that is
sorted with respect to the key order). -/
def esorted (words : List (List Char)) : List (List Char) :=
  List.insertionSort eRel words

theorem keyLe_total : ∀ a b : List ℚ, keyLe a b = true ∨ keyLe b a = true
  | [], _ => Or.inl rfl
  | _ :: _, [] => Or.inr rfl
  | x :: xs, y :: ys => by
    rcases lt_trichotomy x y with h | h | h
    · left; simp [keyLe, h]
    · subst h
      rcases keyLe_total xs ys with h' | h'
      · left; simp [keyLe, lt_irrefl, h']
      · right; simp [keyLe, lt_irrefl, h']
    · right; simp [keyLe, h]

theorem keyLe_trans : ∀ a b c : List ℚ,
    keyLe a b = true → keyLe b c = true → keyLe a c = true
  | [], _, _, _, _ => rfl
  | _ :: _, [], _, h, _ => by simp [keyLe] at h
  | _ :: _, _ :: _, [], _, h => by simp [keyLe] at h
  | x :: xs, y :: ys, z :: zs, h1, h2 => by
    rcases lt_trichotomy x y with hxy | hxy | hxy
    · rcases lt_trichotomy y z with hyz | hyz | hyz
      · simp [keyLe, lt_trans hxy hyz]
      · subst hyz; simp [keyLe, hxy]
      · simp [keyLe, lt_asymm hyz, hyz] at h2
    · subst hxy
      simp only [keyLe, lt_irrefl, if_false] at h1
      rcases lt_trichotomy x z with hyz | hyz | hyz
      · simp [keyLe, hyz]
      · subst hyz
        simp only [keyLe, lt_irrefl, if_false] at h2 ⊢
        exact keyLe_trans xs ys zs h1 h2
      · simp [keyLe, lt_asymm hyz, hyz] at h2
    · simp [keyLe, lt_asymm hxy, hxy] at h1

instance : IsTotal (List Char) eRel :=
  ⟨fun a b => keyLe_total (ekey a) (ekey b)⟩

instance : IsTrans (List Char) eRel :=
  ⟨fun a b c => keyLe_trans (ekey a) (ekey b) (ekey c)⟩

/-- C8: `esorted` returns a permutation of its input sorted by the
positional comparison of per-character keys; each accented Esperanto
letter's hard-coded key equals its unaccented counterpart's codepoint
plus one half; and on the spec's example the circumflexed word sorts
strictly between its base-letter word and the next letter. -/
theorem esorted_sorts_by_esperanto_keys :
    (∀ words : List (List Char),
      (esorted words).Perm words ∧ (esorted words).Sorted eRel) ∧
    (E_ALPHABET_CODE_POINT 'Ĉ' = ('C'.toNat : ℚ) + 1 / 2 ∧
     E_ALPHABET_CODE_POINT 'Ĝ' = ('G'.toNat : ℚ) + 1 / 2 ∧
     E_ALPHABET_CODE_POINT 'Ĥ' = ('H'.toNat : ℚ) + 1 / 2 ∧
     E_ALPHABET_CODE_POINT 'Ĵ' = ('J'.toNat : ℚ) + 1 / 2 ∧
     E_ALPHABET_CODE_POINT 'Ŝ' = ('S'.toNat : ℚ) + 1 / 2 ∧
     E_ALPHABET_CODE_POINT 'Ŭ' = ('U'.toNat : ℚ) + 1 / 2 ∧
     E_ALPHABET_CODE_POINT 'ĉ' = ('c'.toNat : ℚ) + 1 / 2 ∧
     E_ALPHABET_CODE_POINT 'ĝ' = ('g'.toNat : ℚ) + 1 / 2 ∧
     E_ALPHABET_CODE_POINT 'ĥ' = ('h'.toNat : ℚ) + 1 / 2 ∧
     E_ALPHABET_CODE_POINT 'ĵ' = ('j'.toNat : ℚ) + 1 / 2 ∧
     E_ALPHABET_CODE_POINT 'ŝ' = ('s'.toNat : ℚ) + 1 / 2 ∧
     E_ALPHABET_CODE_POINT 'ŭ' = ('u'.toNat : ℚ) + 1 / 2) ∧
    esorted [("ĉokolado").data, ("cokolado").data, ("dokolado").data] =
      [("cokolado").data, ("ĉokolado").data, ("dokolado").data] := by
  refine ⟨fun words => ⟨List.perm_insertionSort eRel words,
    List.sorted_insertionSort eRel words⟩, ?_, by decide⟩
  norm_num +decide [E_ALPHABET_CODE_POINT, Rat.mk'_eq_divInt, Rat.divInt_eq_div,
    show 'C'.toNat = 67 from rfl, show 'G'.toNat = 71 from rfl,
    show 'H'.toNat = 72 from rfl, show 'J'.toNat = 74 from rfl,
    show 'S'.toNat = 83 from rfl, show 'U'.toNat = 85 from rfl,
    show 'c'.toNat = 99 from rfl, show 'g'.toNat = 103 from rfl,
    show 'h'.toNat = 104 from rfl, show 'j'.toNat = 106 from rfl,
    show 's'.toNat = 115 from rfl, show 'u'.toNat = 117 from rfl]

/-! ### Tokenisation (`_split_into_words` / `_is_valid_word`,
src/scrape.py lines 206-224) -/

/-- Python's `\w` (str flavour) restricted to the character repertoire
the program encounters: ASCII letters and digits, the underscore, the
twelve accented Esperanto letters, and the enclosed digits ① to ⑨
(which `str.isalnum`, and hence `\w`, accepts). -/
def isWordChar (c : Char) : Bool :=
  c.isAlphanum || c = '_' ||
    ['Ĉ', 'Ĝ', 'Ĥ', 'Ĵ', 'Ŝ', 'Ŭ', 'ĉ', 'ĝ', 'ĥ', 'ĵ', 'ŝ', 'ŭ'].contains c ||
    (decide ('①' ≤ c) && decide (c ≤ '⑨'))

/-- `_is_valid_word` (src/scrape.py lines 219-224): a candidate is kept
unless it is falsy (empty), is the literal lone hyphen, or matches
`[\d①-⑨]` — i.e. contains a decimal digit or an enclosed digit ①-⑨. -/
def is_valid_word (w : List Char) : Bool :=
  if w = [] ∨ w = ['-'] then false
  else if w.any (fun c => c.isDigit || (decide ('①' ≤ c) && decide (c ≤ '⑨')))
    then false
  else true

/-- `_split_into_words` (src/scrape.py lines 206-217):
`re.split(r'[^-\w\d]', text)` splits the text at every character that is
neither a word character nor a hyphen (empty pieces are kept by
`re.split`); every piece is a candidate; a piece containing a hyphen
additionally contributes its hyphen-separated parts; finally only
candidates passing `_is_valid_word` remain, collected into a set. -/
def split_into_words (text : List Char) : Finset (List Char) :=
  let pieces := text.splitOnP (fun c => !(isWordChar c || c = '-'))
  let candidates := pieces.flatMap (fun w =>
    if '-' ∈ w then w :: w.splitOnP (fun c => c = '-') else [w])
  (candidates.filter is_valid_word).toFinset

/-- Modelled from the claim's words (C6), for comparison with the
source's `_split_into_words`: split the text on every character that is
not a letter, a digit, or a hyphen (a letter being an ASCII letter or
an accented Esperanto letter on the modelled repertoire), keep the
hyphen-splitting and the validity filter unchanged. -/
def claimTokenize (text : List Char) : Finset (List Char) :=
  let letterOrDigitOrHyphen := fun c : Char =>
    c.isAlpha ||
      ['Ĉ', 'Ĝ', 'Ĥ', 'Ĵ', 'Ŝ', 'Ŭ', 'ĉ', 'ĝ', 'ĥ', 'ĵ', 'ŝ', 'ŭ'].contains c ||
      c.isDigit || c = '-'
  let pieces := text.splitOnP (fun c => !letterOrDigitOrHyphen c)
  let candidates := pieces.flatMap (fun w =>
    if '-' ∈ w then w :: w.splitOnP (fun c => c = '-') else [w])
  (candidates.filter is_valid_word).toFinset

/-- The amended keep-condition of C6 spelled out as a predicate: a
candidate survives iff it is non-empty, is not the lone hyphen, and
contains no decimal digit and no enclosed-digit glyph. -/
def amendedKeep (w : List Char) : Prop :=
  w ≠ [] ∧ w ≠ ['-'] ∧
    ∀ c ∈ w, ¬(c.isDigit = true ∨ ('①' ≤ c ∧ c ≤ '⑨'))

instance : DecidablePred amendedKeep := fun w => by
  unfold amendedKeep; infer_instance

/-- The tokenizer per the amended C6: split at every character that is
neither a word character (letter, digit, underscore or other
alphanumeric glyph) nor a hyphen; every piece and every hyphen-part of
a piece is a candidate; keep exactly the candidates satisfying
`amendedKeep`. -/
def amendedTokenize (text : List Char) : Finset (List Char) :=
  ((text.splitOnP (fun c => !(isWordChar c || c = '-'))).flatMap
      (fun w => w :: w.splitOnP (fun c => c = '-'))).toFinset.filter
    amendedKeep

/-- C6, counterexample: the source splits with the class `[^-\w\d]`, and
`\w` matches the underscore, so `a_b` is NOT split at `_` — while the
claim's rule (split at everything that is not a letter, digit or
hyphen) would split it into `a` and `b`. -/
theorem underscore_not_a_split_character :
    split_into_words (("a_b").data) = {("a_b").data} ∧
    claimTokenize (("a_b").data) = {("a").data, ("b").data} := by decide

theorem is_valid_word_iff_amendedKeep (w : List Char) :
    is_valid_word w = true ↔ amendedKeep w := by
  unfold is_valid_word amendedKeep
  by_cases h0 : w = [] ∨ w = ['-']
  · rw [if_pos h0]
    simp only [Bool.false_eq_true, false_iff]
    rintro ⟨hne, hne', _⟩
    rcases h0 with h | h
    · exact hne h
    · exact hne' h
  · rw [if_neg h0]
    push_neg at h0
    by_cases h1 : w.any
        (fun c => c.isDigit || (decide ('①' ≤ c) && decide (c ≤ '⑨'))) = true
    · rw [if_pos h1]
      simp only [Bool.false_eq_true, false_iff]
      simp only [List.any_eq_true, Bool.or_eq_true, Bool.and_eq_true,
        decide_eq_true_eq] at h1
      obtain ⟨c, hc, hcd⟩ := h1
      rintro ⟨_, _, hall⟩
      exact hall c hc (by tauto)
    · rw [if_neg h1]
      simp only [List.any_eq_true, not_exists, not_and] at h1
      refine ⟨fun _ => ⟨h0.1, h0.2, fun c hc hcon => ?_⟩, fun _ => rfl⟩
      apply h1 c hc
      simp only [Bool.or_eq_true, Bool.and_eq_true, decide_eq_true_eq]
      tauto

/-- C6, amended: `_split_into_words` splits the text on every character
that is neither a word character (letter, digit, underscore, or other
alphanumeric glyph such as an enclosed digit) nor a hyphen; each piece
is a candidate and each piece's hyphen-separated parts are candidates;
the result contains exactly the candidates that are non-empty, are not
the lone hyphen, and contain no digit and no enclosed-digit glyph. -/
theorem split_into_words_eq_amended (text : List Char) :
    split_into_words text = amendedTokenize text := by
  unfold split_into_words amendedTokenize
  ext w
  simp only [List.mem_toFinset, List.mem_filter, Finset.mem_filter,
    List.mem_flatMap, is_valid_word_iff_amendedKeep]
  constructor
  · rintro ⟨⟨piece, hp, hw⟩, hkeep⟩
    refine ⟨⟨piece, hp, ?_⟩, hkeep⟩
    by_cases hh : '-' ∈ piece
    · rwa [if_pos hh] at hw
    · rw [if_neg hh] at hw
      simp only [List.mem_singleton] at hw
      subst hw
      exact List.mem_cons_self _ _
  · rintro ⟨⟨piece, hp, hw⟩, hkeep⟩
    refine ⟨⟨piece, hp, ?_⟩, hkeep⟩
    by_cases hh : '-' ∈ piece
    · rwa [if_pos hh]
    · rw [if_neg hh]
      rw [List.splitOnP_eq_single] at hw
      · simp only [List.mem_cons, List.mem_singleton] at hw
        simp only [List.mem_singleton]
        tauto
      · intro x hx
        simp only [decide_eq_true_eq]
        intro hx'
        exact hh (hx' ▸ hx)

/-! ### Morphological normaliser (`_remove_word_endings`,
src/remove_word_endings.py) -/

/-- `WORD_ENDINGS` (src/remove_word_endings.py lines 17-34), in source
order. -/
def WORD_ENDINGS : List (List Char) :=
  [("o").data, ("oj").data, ("ojn").data, ("on").data, ("a").data,
   ("aj").data, ("ajn").data, ("an").data, ("e").data, ("en").data,
   ("i").data, ("as").data, ("is").data, ("os").data, ("us").data,
   ("u").data]

/-- `CORRELATIVES` (lines 36-57).  The source stores the stems in a
Python set whose iteration order inside the built regex alternation is
arbitrary; since no stem is a prefix of another, at most one
alternative can match at a given position and the order is immaterial.
Listed in source order. -/
def CORRELATIVES : List (List Char) :=
  [("kia").data, ("tia").data, ("ia").data, ("ĉia").data, ("nenia").data,
   ("kie").data, ("tie").data, ("ie").data, ("ĉie").data, ("nenie").data,
   ("kio").data, ("tio").data, ("io").data, ("ĉio").data, ("nenio").data,
   ("kiu").data, ("tiu").data, ("iu").data, ("ĉiu").data, ("neniu").data]

/-- `CORRELATIVE_ENDINGS = {'', 'j', 'jn', 'n'}` (line 58); only
membership in the alternation matters. -/
def CORRELATIVE_ENDINGS : List (List Char) :=
  [[], ("j").data, ("jn").data, ("n").data]

/-- `STANDALONE_WORDS` (lines 62-79). -/
def STANDALONE_WORDS : List (List Char) :=
  [("ajn").data, ("ĉi").data, ("ĉu").data, ("do").data, ("ja").data,
   ("jen").data, ("ju").data, ("kaj").data, ("ne").data, ("nun").data,
   ("plej").data, ("pli").data, ("plu").data, ("tamen").data,
   ("tre").data, ("tro").data, ("tuj").data]

/-- The anchored alternation `(stems)(short-endings)$` of
`CORRELATIVE_REGEX` tested at one start position `t` (a suffix of the
word): the matching stem, if the whole of `t` is a stem followed by one
of the short endings. -/
def correlativeMatchAt (t : List Char) : Option (List Char) :=
  CORRELATIVES.find? (fun stem =>
    decide (t.take stem.length = stem) &&
      decide (t.drop stem.length ∈ CORRELATIVE_ENDINGS))

/-- `CORRELATIVE_REGEX.search(word)` and its `group(1)`: `re.search`
scans the start positions left to right. -/
def correlativeSearch : List Char → Option (List Char)
  | [] => none
  | c :: cs =>
    match correlativeMatchAt (c :: cs) with
    | some stem => some stem
    | none => correlativeSearch cs

/-- The longest all-word-character suffix of the word: the region in
which the anchored `ROOT_REGEX` match `(\w+)(ending)$` must live, its
start being the leftmost viable start position of `re.search`. -/
def maxWordSuffix (w : List Char) : List Char :=
  (w.reverse.takeWhile isWordChar).reverse

/-- The length of the ending that the greedy `(\w+)` of `ROOT_REGEX`
concedes to the alternation: the backtracking engine gives back as
little as possible, so the SHORTEST listed ending that leaves a
non-empty root wins.  `t` is the all-word-character tail of the word;
candidate ending lengths run from `1` to `t.length - 1`. -/
def greedyEndingLen (t : List Char) : Option Nat :=
  (List.range' 1 (t.length - 1)).find? (fun l =>
    decide (t.drop (t.length - l) ∈ WORD_ENDINGS))

/-- `ROOT_REGEX.search(word)` and its `group(1)` (the `\w+` capture). -/
def rootSearchGroup1 (w : List Char) : Option (List Char) :=
  let t := maxWordSuffix w
  match greedyEndingLen t with
  | some l => some (t.take (t.length - l))
  | none => none

/-- The branch cascade of `_remove_word_endings` for one word
(lines 87-96): standalone words first, then the correlative regex, then
the root regex, else the word itself. -/
def rootOf (w : List Char) : List Char :=
  if w ∈ STANDALONE_WORDS then w
  else
    match correlativeSearch w with
    | some stem => stem
    | none =>
      match rootSearchGroup1 w with
      | some r => r
      | none => w

/-- `_remove_word_endings` (lines 87-101): the set of roots. -/
def remove_word_endings (words : List (List Char)) : Finset (List Char) :=
  (words.map rootOf).toFinset

/-- Modelled from the spec's words (C5): the same ending search but the
LONGEST listed ending wins, for comparison with the source's greedy
(shortest-ending) behaviour. -/
def longestEndingLen (t : List Char) : Option Nat :=
  (List.range' 1 (t.length - 1)).reverse.find? (fun l =>
    decide (t.drop (t.length - l) ∈ WORD_ENDINGS))

/-- `rootSearchGroup1` with the longest-suffix-wins rule. -/
def rootSearchGroup1Longest (w : List Char) : Option (List Char) :=
  let t := maxWordSuffix w
  match longestEndingLen t with
  | some l => some (t.take (t.length - l))
  | none => none

/-- `rootOf` with the longest-suffix-wins rule. -/
def rootOfLongest (w : List Char) : List Char :=
  if w ∈ STANDALONE_WORDS then w
  else
    match correlativeSearch w with
    | some stem => stem
    | none =>
      match rootSearchGroup1Longest w with
      | some r => r
      | none => w

/-- No listed grammatical ending is a proper suffix of another listed
ending (checked over all 16 × 16 pairs). -/
theorem no_ending_is_proper_suffix_of_another :
    ∀ e1 ∈ WORD_ENDINGS, ∀ e2 ∈ WORD_ENDINGS,
      e1.length < e2.length → e2.drop (e2.length - e1.length) ≠ e1 := by
  decide

/-- At most one candidate ending length can match the end of `t`. -/
theorem ending_split_unique (t : List Char) :
    ∀ l1 ∈ List.range' 1 (t.length - 1), ∀ l2 ∈ List.range' 1 (t.length - 1),
      (fun l => decide (t.drop (t.length - l) ∈ WORD_ENDINGS)) l1 = true →
      (fun l => decide (t.drop (t.length - l) ∈ WORD_ENDINGS)) l2 = true →
      l1 = l2 := by
  simp only [decide_eq_true_eq]
  intro l1 hl1 l2 hl2 he1 he2
  rw [List.mem_range'_1] at hl1 hl2
  by_contra hne
  -- Symmetric situation: reduce to the case `l1 < l2`.
  rcases Nat.lt_or_ge l1 l2 with hlt | hge
  · have hlen1 : (t.drop (t.length - l1)).length = l1 := by
      rw [List.length_drop]; omega
    have hlen2 : (t.drop (t.length - l2)).length = l2 := by
      rw [List.length_drop]; omega
    have hdd : (t.drop (t.length - l2)).drop (l2 - l1) =
        t.drop (t.length - l1) := by
      rw [List.drop_drop]
      congr 1
      omega
    have := no_ending_is_proper_suffix_of_another _ he1 _ he2
      (by rw [hlen1, hlen2]; omega)
    rw [hlen1, hlen2] at this
    exact this (hdd ▸ rfl)
  · have hlt : l2 < l1 := by omega
    have hlen1 : (t.drop (t.length - l1)).length = l1 := by
      rw [List.length_drop]; omega
    have hlen2 : (t.drop (t.length - l2)).length = l2 := by
      rw [List.length_drop]; omega
    have hdd : (t.drop (t.length - l1)).drop (l1 - l2) =
        t.drop (t.length - l2) := by
      rw [List.drop_drop]
      congr 1
      omega
    have := no_ending_is_proper_suffix_of_another _ he2 _ he1
      (by rw [hlen1, hlen2]; omega)
    rw [hlen1, hlen2] at this
    exact this (hdd ▸ rfl)

/-- When a predicate holds for at most one element of a list, searching
front-to-back and back-to-front find the same element. -/
theorem find?_eq_reverse_find?_of_unique {p : Nat → Bool} {l : List Nat}
    (h : ∀ a ∈ l, ∀ b ∈ l, p a = true → p b = true → a = b) :
    l.find? p = l.reverse.find? p := by
  cases h1 : l.find? p with
  | none =>
    cases h2 : l.reverse.find? p with
    | none => rfl
    | some b =>
      have hb := List.find?_some h2
      have hbm := List.mem_reverse.mp (List.mem_of_find?_eq_some h2)
      exact absurd hb (by simpa using List.find?_eq_none.mp h1 b hbm)
  | some a =>
    cases h2 : l.reverse.find? p with
    | none =>
      have ha := List.find?_some h1
      have ham := List.mem_of_find?_eq_some h1
      exact absurd ha
        (by simpa using List.find?_eq_none.mp h2 a (List.mem_reverse.mpr ham))
    | some b =>
      have ha := List.find?_some h1
      have ham := List.mem_of_find?_eq_some h1
      have hb := List.find?_some h2
      have hbm := List.mem_reverse.mp (List.mem_of_find?_eq_some h2)
      rw [h a ham b hbm ha hb]

theorem greedyEndingLen_eq_longest (t : List Char) :
    greedyEndingLen t = longestEndingLen t :=
  find?_eq_reverse_find?_of_unique (ending_split_unique t)

/-! ### Normaliser pre-filter (`_remove_invalid_words`,
src/remove_word_endings.py lines 83-84) -/

/-- `_remove_invalid_words`: keep the words of length > 1 for which
`re.search('[ -.]', word)` finds nothing.  `[ -.]` is a codepoint
RANGE, from the space (0x20) to the period (0x2E). -/
def remove_invalid_words (words : List (List Char)) : List (List Char) :=
  words.filter (fun w =>
    decide (1 < w.length) &&
      !(w.any (fun c => decide (' ' ≤ c) && decide (c ≤ '.'))))

/-- Modelled from the claim's words (C7), for comparison with the
source's `_remove_invalid_words`: keep a word iff its length is greater
than 1 and it contains no whitespace character, no literal period, and
no hyphen. -/
def claimKeep (w : List Char) : Bool :=
  decide (1 < w.length) &&
    !(w.any (fun c => c.isWhitespace || c = '.' || c = '-'))

/-- C7, counterexample: `a!` has length 2 and contains no whitespace,
no period and no hyphen, so the claim keeps it — but `!` (0x21) falls in
the regex range `[ -.]` = 0x20..0x2E, so the source drops the word. -/
theorem exclamation_mark_word_dropped :
    remove_invalid_words [("a!").data] = [] ∧
      claimKeep (("a!").data) = true := by decide

/-- C7, amended: the pre-filter keeps an input word if and only if its
length is greater than 1 and it contains no character in the codepoint
range from the space (0x20) to the period (0x2E) inclusive — the
characters space `!"#$%&'()*+,-.` — every word all of whose characters
lie outside that range passes the filter unchanged. -/
theorem remove_invalid_words_keeps_iff (ws : List (List Char))
    (w : List Char) :
    w ∈ remove_invalid_words ws ↔
      w ∈ ws ∧ 1 < w.length ∧ ∀ c ∈ w, ¬(' ' ≤ c ∧ c ≤ '.') := by
  unfold remove_invalid_words
  simp only [List.mem_filter, Bool.and_eq_true, decide_eq_true_eq,
    Bool.not_eq_true', List.any_eq_false, Bool.and_eq_false_iff,
    decide_eq_false_iff_not]

/-- C5: pre-filter plus root derivation maps the spec's example word
set to exactly the expected root set; and in general the ending the
source's root regex strips coincides with the longest-suffix-wins rule
(the ending list contains no pair nested by the suffix relation, so the
greedy backtracking match is also the longest match). -/
theorem remove_word_endings_longest_suffix :
    remove_word_endings (remove_invalid_words
        [("kiuj").data, ("domoj").data, ("ĉu").data, ("grandan").data]) =
      {("kiu").data, ("dom").data, ("ĉu").data, ("grand").data} ∧
    ∀ w : List Char, rootOf w = rootOfLongest w := by
  refine ⟨by decide, fun w => ?_⟩
  unfold rootOf rootOfLongest rootSearchGroup1 rootSearchGroup1Longest
  simp only [greedyEndingLen_eq_longest]

/-! ### Document model and `_extract_words` (src/scrape.py
lines 181-203) -/

/-- A node of the parsed document: an element with a tag name, the
items of its class attribute, and children — or a text node.  This
models the tag-tree interface `_extract_words` uses: find_all by tag
and class, decompose, text. -/
inductive Node where
  | el (tag : String) (classes : List String) (children : List Node)
  | txt (s : List Char)

/-- Substring test: the `re.search` semantics of the class patterns
`.*tooltipstered.*` and `div derivajho.*`. -/
def containsSub (pat : List Char) : List Char → Bool
  | [] => decide (pat = [])
  | c :: cs => decide ((c :: cs).take pat.length = pat) || containsSub pat cs

/-- `soup.find_all(class_=re.compile('.*tooltipstered.*'))` (line 189):
a regex class matcher is searched against each class item. -/
def isTooltip (_tag : String) (classes : List String) : Bool :=
  classes.any (fun c => containsSub (("tooltipstered").data) c.data)

/-- `find_all('strong', class_='kapvorto')` (line 192): a plain string
class matcher matches any single class item. -/
def isKapvorto (tag : String) (classes : List String) : Bool :=
  tag == "strong" && classes.contains ("kapvorto")

/-- `find_all('div', class_='div senco')` (line 195): a class string
containing a space cannot equal a single class item, so BeautifulSoup
falls back to the whole class attribute — the item list must be exactly
`div senco`. -/
def isSenco (tag : String) (classes : List String) : Bool :=
  tag == "div" && classes == ["div", "senco"]

/-- The joined class attribute string. -/
def joinClasses (classes : List String) : String :=
  String.intercalate (" ") classes

/-- `find_all('div', class_=re.compile('div derivajho.*'))` (line 198):
the pattern contains a space, so it can only match against the joined
class attribute. -/
def isDerivajho (tag : String) (classes : List String) : Bool :=
  tag == "div" && containsSub (("div derivajho").data) ((joinClasses classes).data)

/-- `find_all('strong', class_=re.compile('^d.*'))` (line 199): some
class item starts with `d`. -/
def isDStrong (tag : String) (classes : List String) : Bool :=
  tag == "strong" && classes.any (fun c => c.data.take 1 == ['d'])

/-- `tag.text` of a forest: the concatenated text leaves. -/
def textL : List Node → List Char
  | [] => []
  | Node.txt s :: ns => s ++ textL ns
  | Node.el _ _ cs :: ns => textL cs ++ textL ns

/-- `find_all` over a forest: every element whose tag and classes
satisfy the matcher, in document order (an element before its
descendants), recursing into matches as BeautifulSoup does. -/
def findAllL (p : String → List String → Bool) : List Node → List Node
  | [] => []
  | Node.txt _ :: ns => findAllL p ns
  | Node.el t c cs :: ns =>
    (if p t c then [Node.el t c cs] else []) ++ findAllL p cs ++ findAllL p ns

/-- `decompose()` applied to every matching element of a forest. -/
def removeAllL (p : String → List String → Bool) : List Node → List Node
  | [] => []
  | Node.txt s :: ns => Node.txt s :: removeAllL p ns
  | Node.el t c cs :: ns =>
    if p t c then removeAllL p ns
    else Node.el t c (removeAllL p cs) :: removeAllL p ns

/-- The token a headword or derived-form element contributes:
`tag.text.replace('/', '')` (lines 193 and 201). -/
def headToken (n : Node) : List Char :=
  (textL [n]).filter (fun c => !(c == '/'))

/-- The contribution of one derivation container (lines 198-203): its
derived-form strongs, slash-stripped, are collected and decomposed,
then the remaining text of the container is tokenised.  Containers are
processed independently (derivation divs are not nested in the
documents the source consumes). -/
def processDeriv : Node → Finset (List Char)
  | Node.txt _ => ∅
  | Node.el _ _ cs =>
    ((findAllL isDStrong cs).map headToken).toFinset ∪
      split_into_words (textL (removeAllL isDStrong cs))

/-- `_extract_words` (lines 186-203) over the parsed fragment:
decompose the tooltip/abbreviation decorations, collect the
slash-stripped headwords, tokenise the sense divs, and process each
derivation div. -/
def extract_words (ns : List Node) : Finset (List Char) :=
  let ns1 := removeAllL isTooltip ns
  ((findAllL isKapvorto ns1).map headToken).toFinset ∪
    (findAllL isSenco ns1).foldl
      (fun acc n => acc ∪ split_into_words (textL [n])) ∅ ∪
    (findAllL isDerivajho ns1).foldl (fun acc n => acc ∪ processDeriv n) ∅

/-- A fragment whose single element is a headword strong with text `t`
extracts exactly the token `t` with the slashes removed. -/
theorem extract_words_single_kapvorto (t : List Char) :
    extract_words [Node.el ("strong") [("kapvorto")] [Node.txt t]] =
      {t.filter (fun c => !(c == '/'))} := by
  simp [extract_words, removeAllL, findAllL, isTooltip, isKapvorto,
    isSenco, isDerivajho, isDStrong, containsSub, headToken, textL,
    joinClasses, processDeriv, split_into_words]

/-- A fragment whose single element is a derivation div holding one
derived-form strong with text `t` extracts exactly the token `t` with
the slashes removed. -/
theorem extract_words_single_derived (t : List Char) :
    extract_words [Node.el ("div") [("div"), ("derivajho")]
        [Node.el ("strong") [("derivajho")] [Node.txt t]]] =
      {t.filter (fun c => !(c == '/'))} := by
  simp [extract_words, removeAllL, findAllL, isTooltip, isKapvorto,
    isSenco, isDerivajho, isDStrong, containsSub, headToken, textL,
    joinClasses, processDeriv, split_into_words]
  exact Or.inl (by decide)

/-- C9: a document whose single element is a headword strong with text
`t` extracts exactly the one token `t`-with-slashes-removed; likewise a
derived-form strong inside a derivation div; and at
`t = "hundo/hundino"` the extracted token is `"hundohundino"` — the two
words `"hundo"` and `"hundino"` are NOT extracted. -/
theorem headword_slash_variants_one_token :
    (∀ t : List Char,
      extract_words [Node.el ("strong") [("kapvorto")] [Node.txt t]] =
        {t.filter (fun c => !(c == '/'))}) ∧
    (∀ t : List Char,
      extract_words [Node.el ("div") [("div"), ("derivajho")]
          [Node.el ("strong") [("derivajho")] [Node.txt t]]] =
        {t.filter (fun c => !(c == '/'))}) ∧
    extract_words [Node.el ("strong") [("kapvorto")]
        [Node.txt (("hundo/hundino").data)]] = {("hundohundino").data} ∧
    ("hundo").data ∉ extract_words [Node.el ("strong") [("kapvorto")]
        [Node.txt (("hundo/hundino").data)]] ∧
    ("hundino").data ∉ extract_words [Node.el ("strong") [("kapvorto")]
        [Node.txt (("hundo/hundino").data)]] := by
  refine ⟨extract_words_single_kapvorto, extract_words_single_derived,
    ?_, ?_, ?_⟩ <;>
  · rw [extract_words_single_kapvorto]
    decide

/-- C10: text taken from headword (and derived-form) elements bypasses
`_is_valid_word`, which only filters tokenised sense/derivation text: a
headword of slashes only puts the empty string into the result, and a
digit-bearing headword survives — while the same strings fed through
the tokeniser are dropped. -/
theorem headwords_bypass_validity_filter :
    extract_words [Node.el ("strong") [("kapvorto")]
        [Node.txt (("//").data)]] = {([] : List Char)} ∧
    extract_words [Node.el ("strong") [("kapvorto")]
        [Node.txt (("abc1").data)]] = {("abc1").data} ∧
    is_valid_word ([] : List Char) = false ∧
    is_valid_word (("abc1").data) = false ∧
    split_into_words (("//").data) = ∅ ∧
    split_into_words (("abc1").data) = ∅ := by
  refine ⟨?_, ?_, by decide, by decide, by decide, by decide⟩ <;>
  · rw [extract_words_single_kapvorto]
    decide

/-- Witness for C4's amended theorem at a concrete crawl. -/
theorem rerun_after_completion_changes_nothing_witness :
    runTrace (fun _ => true) (fun _ => (∅ : Finset String)) [FIRST_WORD]
      (restart (runTrace (fun _ => true) (fun _ => (∅ : Finset String))
        [FIRST_WORD] ⟨{FIRST_WORD}, ∅, ∅⟩)) =
      runTrace (fun _ => true) (fun _ => (∅ : Finset String)) [FIRST_WORD]
        ⟨{FIRST_WORD}, ∅, ∅⟩ ∧
    [FIRST_WORD] = [FIRST_WORD] :=
  rerun_after_completion_changes_nothing (fun _ => true) (fun _ => ∅)
    [FIRST_WORD] [FIRST_WORD] (by decide) (by decide) (by decide) (by decide)

end PIV
